import Mathlib

set_option maxRecDepth 8000

/-!
Verification development for the pasalacabra daily-set generator
(scripts/generate_daily_set.py).  Python strings are modelled as
`List Char`; the character-level primitives (`str.lower`, `str.upper`,
`str.strip`, `unicodedata.normalize("NFD", ·)` followed by removal of
category-Mn characters, the `\w`/`\s` regex classes) are modelled by
explicit tables covering the character repertoire the script works with:
ASCII, the Spanish accented vowels in both cases, ü/Ü, ñ/Ñ, and the
combining diacritical marks block U+0300–U+036F.  `str.replace` is
modelled by a faithful left-to-right, non-overlapping substring rewriter.
Fallible Python code (raised exceptions) is modelled with `Except`.
-/

/-- View a Lean string literal as the list of its characters. -/
def str (s : String) : List Char := s.data

/-- Python whitespace (`str.strip`, regex `\s`), ASCII repertoire. -/
def pyIsSpace (c : Char) : Bool :=
  c == ' ' || c == '\t' || c == '\n' || c == '\r' || c == '\x0b' || c == '\x0c'

/-- Python `str.lower` on a single character (ASCII plus the Spanish
accented letters used by the script). -/
def pyLower (c : Char) : Char :=
  if 'A' ≤ c ∧ c ≤ 'Z' then Char.ofNat (c.toNat + 32)
  else if c = 'Á' then 'á' else if c = 'É' then 'é' else if c = 'Í' then 'í'
  else if c = 'Ó' then 'ó' else if c = 'Ú' then 'ú' else if c = 'Ü' then 'ü'
  else if c = 'Ñ' then 'ñ' else c

/-- Python `str.upper` on a single character (same repertoire). -/
def pyUpper (c : Char) : Char :=
  if 'a' ≤ c ∧ c ≤ 'z' then Char.ofNat (c.toNat - 32)
  else if c = 'á' then 'Á' else if c = 'é' then 'É' else if c = 'í' then 'Í'
  else if c = 'ó' then 'Ó' else if c = 'ú' then 'Ú' else if c = 'ü' then 'Ü'
  else if c = 'ñ' then 'Ñ' else c

/-- Unicode canonical decomposition (NFD) of one character, for the
characters in the modelled repertoire; all other characters are their
own decomposition. -/
def nfdChar (c : Char) : List Char :=
  if c = 'á' then ['a', '́'] else if c = 'é' then ['e', '́']
  else if c = 'í' then ['i', '́'] else if c = 'ó' then ['o', '́']
  else if c = 'ú' then ['u', '́'] else if c = 'Á' then ['A', '́']
  else if c = 'É' then ['E', '́'] else if c = 'Í' then ['I', '́']
  else if c = 'Ó' then ['O', '́'] else if c = 'Ú' then ['U', '́']
  else if c = 'ü' then ['u', '̈'] else if c = 'Ü' then ['U', '̈']
  else if c = 'ñ' then ['n', '̃'] else if c = 'Ñ' then ['N', '̃']
  else [c]

/-- Unicode category Mn (nonspacing combining mark): the combining
diacritical marks block U+0300–U+036F. -/
def isMn (c : Char) : Bool :=
  decide ('̀'.toNat ≤ c.toNat) && decide (c.toNat ≤ 'ͯ'.toNat)

/-- Concatenation of the images of the characters of a string. -/
def concatMap (f : Char → List Char) : List Char → List Char
  | [] => []
  | c :: cs => f c ++ concatMap f cs

/-- NFD decomposition of one character with its combining marks removed. -/
def stripChar (c : Char) : List Char := (nfdChar c).filter (fun x => !isMn x)

/-- Model of `strip_accents` from the script: NFD-decompose and drop every
category-Mn character. -/
def strip_accents (s : List Char) : List Char := concatMap stripChar s

/-- Python `str.strip`: remove leading and trailing whitespace. -/
def pyStrip (s : List Char) : List Char :=
  ((s.dropWhile pyIsSpace).reverse.dropWhile pyIsSpace).reverse

/-- Fueled worker for `pyReplace`; the fuel is an upper bound on the
number of characters still to be consumed. -/
def pyReplaceAux (pat rep : List Char) : Nat → List Char → List Char
  | _, [] => []
  | 0, s => s
  | fuel + 1, c :: cs =>
    if !pat.isEmpty && pat.isPrefixOf (c :: cs) then
      rep ++ pyReplaceAux pat rep fuel ((c :: cs).drop pat.length)
    else
      c :: pyReplaceAux pat rep fuel cs

/-- Python `str.replace(pat, rep)` for a non-empty pattern: replace
non-overlapping occurrences scanning left to right. -/
def pyReplace (pat rep s : List Char) : List Char := pyReplaceAux pat rep s.length s

/-- Python substring containment `pat in s`: some (possibly empty)
occurrence of `pat` starts at some position of `s`. -/
def pyInStr (pat : List Char) : List Char → Bool
  | [] => pat.isEmpty
  | c :: cs => pat.isPrefixOf (c :: cs) || pyInStr pat cs

/-- The private placeholder the script substitutes for Ñ while stripping
accents. -/
def enyeBlock : List Char := str "__ENYE__"

/-- Model of `normalize_for_letter_check`: trim, fold ñ to Ñ, hide Ñ
behind the placeholder, strip accents, restore the placeholder. -/
def normalize_for_letter_check (s : List Char) : List Char :=
  pyReplace enyeBlock (str "Ñ")
    (strip_accents
      (pyReplace (str "Ñ") enyeBlock
        (pyReplace (str "ñ") (str "Ñ")
          (pyStrip s))))

/-- Worker for `collapseWs`: the flag records whether the previous
character was whitespace (so a run contributes a single space). -/
def collapseWsAux : Bool → List Char → List Char
  | _, [] => []
  | prevWs, c :: cs =>
    if pyIsSpace c then
      (if prevWs then collapseWsAux true cs else ' ' :: collapseWsAux true cs)
    else c :: collapseWsAux false cs

/-- Model of `re.sub(r"\s+", " ", s)`: collapse every whitespace run to a
single space. -/
def collapseWs (s : List Char) : List Char := collapseWsAux false s

/-- Regex `\w` with `re.UNICODE` on the modelled repertoire: ASCII
alphanumerics, underscore, and the accented letters of the tables. -/
def pyIsWordChar (c : Char) : Bool :=
  (decide ('a' ≤ c) && decide (c ≤ 'z')) || (decide ('A' ≤ c) && decide (c ≤ 'Z'))
  || (decide ('0' ≤ c) && decide (c ≤ '9')) || c == '_'
  || c == 'á' || c == 'é' || c == 'í' || c == 'ó' || c == 'ú'
  || c == 'Á' || c == 'É' || c == 'Í' || c == 'Ó' || c == 'Ú'
  || c == 'ü' || c == 'Ü' || c == 'ñ' || c == 'Ñ'

/-- Model of `normalize_for_contains_check`: lowercase, fold ñ to n,
strip accents, replace each character matching `[^\w\s]` by a space,
collapse whitespace runs, trim. -/
def normalize_for_contains_check (s : List Char) : List Char :=
  pyStrip
    (collapseWs
      ((strip_accents
          (pyReplace (str "ñ") (str "n")
            (s.map pyLower))).map
        (fun c => if pyIsWordChar c || pyIsSpace c then c else ' ')))

/-- The error conditions the script can raise, one constructor per
distinct raise site (payloads model the data interpolated into the
Python messages). `attributeGet` is the `AttributeError` Python raises
when `.get` is called on a non-dict value; `transport` stands for a
failed external (OpenAI) call. -/
inductive Err where
  | badId
  | badTitle
  | badLength
  | lettersMismatch
  | entryNotObject
  | entryFieldTypes
  | duplicateAnswer (answer : List Char)
  | emptyQA
  | noPattern (question : List Char)
  | letterMismatch (expected got : List Char)
  | answerStart (letter answer : List Char)
  | answerContain (letter answer : List Char)
  | leakage
  | attributeGet
  | transport
deriving DecidableEq, Repr

/-- JSON-shaped Python values (the repertoire `json.loads` can produce
that the script manipulates). -/
inductive PyVal where
  | pstr (s : List Char)
  | pint (n : Int)
  | plist (xs : List PyVal)
  | pdict (entries : List (List Char × PyVal))
  | pnone

/-- Python `dict.get(k)` on an association list: `None` when absent. -/
def dictGet (d : List (List Char × PyVal)) (k : List Char) : PyVal :=
  match d with
  | [] => .pnone
  | (k', v) :: rest => if k' == k then v else dictGet rest k

/-- Python `obj.get(k)`: succeeds only on dicts; on every other
JSON-shaped value attribute lookup of `get` raises `AttributeError`. -/
def pyGet : PyVal → List Char → Except Err PyVal
  | .pdict d, k => .ok (dictGet d k)
  | _, _ => .error .attributeGet

/-- Case-insensitive literal match (the pattern is given lowercase, as
`re.IGNORECASE` folds case): returns the rest of the input on success. -/
def matchCI : List Char → List Char → Option (List Char)
  | [], s => some s
  | _ :: _, [] => none
  | p :: ps, c :: cs => if pyLower c = p then matchCI ps cs else none

/-- Regex `\s+`: at least one whitespace character, consumed greedily. -/
def spacesPlus : List Char → Option (List Char)
  | [] => none
  | c :: cs => if pyIsSpace c then some (cs.dropWhile pyIsSpace) else none

/-- The character class `[A-ZÑ]` under `re.IGNORECASE`. -/
def letterClass (c : Char) : Bool :=
  (decide ('A' ≤ c) && decide (c ≤ 'Z')) || (decide ('a' ≤ c) && decide (c ≤ 'z'))
  || c == 'Ñ' || c == 'ñ'

/-- Model of `re.match(r"^\s*W1\s+W2\s+([A-ZÑ])\s*:\s*", q, re.IGNORECASE)`:
returns the captured letter character when the anchored pattern matches. -/
def reMatchQuestion (w1 w2 : List Char) (q : List Char) : Option Char :=
  match matchCI w1 (q.dropWhile pyIsSpace) with
  | none => none
  | some s1 =>
    match spacesPlus s1 with
    | none => none
    | some s2 =>
      match matchCI w2 s2 with
      | none => none
      | some s3 =>
        match spacesPlus s3 with
        | none => none
        | some s4 =>
          match s4 with
          | [] => none
          | c :: rest =>
            if letterClass c then
              match rest.dropWhile pyIsSpace with
              | ':' :: _ => some c
              | _ => none
            else none

/-- Model of `enforce_letter_constraint(letter, question, answer)`. -/
def enforce_letter_constraint (letter question answer : List Char) :
    Except Err Unit :=
  let q := pyStrip question
  let a := pyStrip answer
  if q.isEmpty || a.isEmpty then .error .emptyQA
  else
    let mEmp := reMatchQuestion (str "empieza") (str "por") q
    let mCon := reMatchQuestion (str "contiene") (str "la") q
    match mEmp, mCon with
    | none, none => .error (.noPattern q)
    | _, _ =>
      let captured : List Char :=
        match mEmp with
        | some c => [c]
        | none => match mCon with | some c => [c] | none => []
      let qLetter := captured.map pyUpper
      if qLetter ≠ letter then .error (.letterMismatch letter qLetter)
      else
        let aNorm := normalize_for_letter_check a
        match mEmp with
        | some _ =>
          let first := (aNorm.take 1).map pyUpper
          if first ≠ letter then .error (.answerStart letter answer) else .ok ()
        | none =>
          if !pyInStr letter (aNorm.map pyUpper) then
            .error (.answerContain letter answer)
          else .ok ()

/-- Model of `enforce_answer_not_in_question(question, answer)`. -/
def enforce_answer_not_in_question (question answer : List Char) :
    Except Err Unit :=
  let qNorm := normalize_for_contains_check question
  let aNorm := normalize_for_contains_check answer
  if !aNorm.isEmpty && pyInStr aNorm qNorm then .error .leakage else .ok ()

/-- The fixed alphabet `LETTERS` of the script (25 one-letter strings). -/
def LETTERS : List (List Char) := (str "ABCDEFGHIJLMNÑOPQRSTUVXYZ").map (fun c => [c])

/-- Compare the collected `letter` fields against the expected alphabet
(Python `==` between a list of fetched values and a list of strings). -/
def lettersMatch : List PyVal → List (List Char) → Bool
  | [], [] => true
  | .pstr s :: rest, e :: erest => s == e && lettersMatch rest erest
  | _, _ => false

/-- Per-entry body of the validation loop in `validate_set`: dict check,
field type checks, duplicate-answer detection against the accumulated
`seen_answers`, then the two rule checks; returns the grown seen-set.
(The script adds the key to `seen_answers` before the two rule checks;
since a raise aborts the whole validation, growing the set afterwards is
observationally identical.) -/
def validateEntry (seen : List (List Char)) (q : PyVal) :
    Except Err (List (List Char)) :=
  match q with
  | .pdict d =>
    match dictGet d (str "letter"), dictGet d (str "question"),
        dictGet d (str "answer") with
    | .pstr letter, .pstr question, .pstr answer =>
      let ansKey := (pyStrip (normalize_for_letter_check answer)).map pyLower
      if ansKey ∈ seen then .error (.duplicateAnswer answer)
      else do
        enforce_letter_constraint letter question answer
        enforce_answer_not_in_question question answer
        pure (ansKey :: seen)
    | _, _, _ => .error .entryFieldTypes
  | _ => .error .entryNotObject

/-- Left-to-right fold of `validateEntry` over the question list. -/
def validateEntries : List PyVal → List (List Char) → Except Err Unit
  | [], _ => .ok ()
  | q :: rest, seen => do
    let seen' ← validateEntry seen q
    validateEntries rest seen'

/-- Model of `validate_set(obj)`: identity constant, title shape,
question count, letter sequence (collected with `q.get("letter")` for
every entry — an `AttributeError` for non-dict entries), then the
per-entry loop. -/
def validate_set (obj : PyVal) : Except Err Unit := do
  let idv ← pyGet obj (str "id")
  let idOk := match idv with | .pstr s => s == str "set_01" | _ => false
  if !idOk then throw .badId
  else do
    let titlev ← pyGet obj (str "title")
    let titleOk := match titlev with
      | .pstr t => !(pyStrip t).isEmpty
      | _ => false
    if !titleOk then throw .badTitle
    else do
      let qsv ← pyGet obj (str "questions")
      match qsv with
      | .plist qs =>
        if qs.length ≠ LETTERS.length then throw .badLength
        else do
          let letters ← qs.mapM (fun q => pyGet q (str "letter"))
          if !lettersMatch letters LETTERS then throw .lettersMismatch
          else validateEntries qs []
      | _ => throw .badLength

/-- The configured pass bound `MAX_PASSES` of the script. -/
def MAX_PASSES : Nat := 3

/-- Outcome of one iteration of the try block of one pass of the repair loop: either the
terminal success (the re-validated fixed object) or a recorded error
together with the value of `obj` after the iteration. -/
inductive PassResult where
  | success (final : PyVal)
  | failure (obj : Option PyVal) (e : Err)

/-- The `validate → fix → re-validate` portion of one pass, given a
candidate `o` (the script keeps `obj = o` unless the fixed object passes
re-validation, at which point `obj = obj2`). -/
def runValidateFix (fix : PyVal → Except Err PyVal) (o : PyVal) : PassResult :=
  match validate_set o with
  | .error e => .failure (some o) e
  | .ok _ =>
    match fix o with
    | .error e => .failure (some o) e
    | .ok o2 =>
      match validate_set o2 with
      | .error e => .failure (some o) e
      | .ok _ => .success o2

/-- One full pass: regenerate only when no candidate exists (a generator
failure leaves `obj` as `None`), then validate/fix/re-validate. -/
def onePass (gen : Except Err PyVal) (fix : PyVal → Except Err PyVal) :
    Option PyVal → PassResult
  | none =>
    match gen with
    | .error e => .failure none e
    | .ok o => runValidateFix fix o
  | some o => runValidateFix fix o

/-- State left behind by the `for attempt in range(1, MAX_PASSES + 1)`
loop: the final `obj`, the final `last_err`, and the value of the loop
variable `attempt` when the loop was exited. -/
structure LoopOut where
  obj : Option PyVal
  lastErr : Option Err
  attempt : Nat

/-- Worker for `runLoop`: `remaining` passes left, `a` the current value
of `attempt`.  On normal exhaustion the Python loop variable retains its
last value `a - 1`. -/
def runLoopAux (gen : Nat → Except Err PyVal) (fix : Nat → PyVal → Except Err PyVal) :
    Nat → Nat → Option PyVal → Option Err → LoopOut
  | 0, a, obj, le => ⟨obj, le, a - 1⟩
  | r + 1, a, obj, le =>
    match onePass (gen a) (fix a) obj with
    | .success f => ⟨some f, le, a⟩
    | .failure obj' e => runLoopAux gen fix r (a + 1) obj' (some e)

/-- The repair loop of `main`: up to `MAX_PASSES` passes starting with no
candidate and no recorded error. -/
def runLoop (gen : Nat → Except Err PyVal) (fix : Nat → PyVal → Except Err PyVal) :
    LoopOut :=
  runLoopAux gen fix MAX_PASSES 1 none none

/-- Observable outcome of `main` after the loop: the fatal
`RuntimeError` (carrying `last_err`) or the successful write of the
final set (followed by the title/topics status prints). -/
inductive MainOutcome where
  | fatal (lastErr : Option Err)
  | wrote (obj : PyVal)

/-- Model of the tail of `main`: `if obj is None or (last_err is not None
and attempt == MAX_PASSES): raise RuntimeError(...)`, otherwise
`write_set` and the status prints. -/
def mainOutcome (gen : Nat → Except Err PyVal) (fix : Nat → PyVal → Except Err PyVal) :
    MainOutcome :=
  let r := runLoop gen fix
  match r.obj with
  | none => .fatal r.lastErr
  | some o =>
    if r.lastErr ≠ none ∧ r.attempt = MAX_PASSES then .fatal r.lastErr
    else .wrote o

/-! Derived character-level functions used to state and prove the
normalization theorems. -/

/-- The base letter of each character of the modelled repertoire: what
remains of one character after NFD decomposition and removal of its
combining marks (the branches parallel the `nfdChar` table). -/
def deAcc (c : Char) : Char :=
  if c = 'á' then 'a' else if c = 'é' then 'e'
  else if c = 'í' then 'i' else if c = 'ó' then 'o'
  else if c = 'ú' then 'u' else if c = 'Á' then 'A'
  else if c = 'É' then 'E' else if c = 'Í' then 'I'
  else if c = 'Ó' then 'O' else if c = 'Ú' then 'U'
  else if c = 'ü' then 'u' else if c = 'Ü' then 'U'
  else if c = 'ñ' then 'n' else if c = 'Ñ' then 'N'
  else c

/-- The per-character action of `normalize_for_letter_check` on mark-free
placeholder-free text: ñ and Ñ become Ñ, every other character loses its
diacritics. -/
def specOne (c : Char) : Char := if c = 'ñ' ∨ c = 'Ñ' then 'Ñ' else deAcc c

/-- The image of one character under the ñ-folding/accent-stripping part
of `normalize_for_letter_check` before the placeholder is restored. -/
def phChar (c : Char) : List Char :=
  if c = 'ñ' ∨ c = 'Ñ' then enyeBlock else stripChar c

/-- The image of one character under the Ñ-to-placeholder expansion
(the second replace of `normalize_for_letter_check`). -/
def enyeExpand (c : Char) : List Char := if c = 'Ñ' then enyeBlock else [c]

/-- Case-and-accent folding: the common value two strings share exactly
when they differ only in letter case or accents. -/
def caseAccentFold (s : List Char) : List Char := strip_accents (s.map pyLower)

/-- Erase punctuation (the regex class `[^\w\s]`): two strings differing
only in punctuation have the same `dropPunct` image. -/
def dropPunct (s : List Char) : List Char :=
  s.filter (fun c => pyIsWordChar c || pyIsSpace c)

/-! Concrete question sets used as test vectors for the set-level claims. -/

/-- A question entry as the JSON dict the script expects. -/
def mkEntry (l q a : List Char) : PyVal :=
  .pdict [(str "letter", .pstr l), (str "question", .pstr q), (str "answer", .pstr a)]

/-- A schema- and rule-conforming entry for letter `c`: the question uses
the starts-with prefix and the answer starts with `c` and does not leak
into the question. -/
def goodEntry (c : Char) : PyVal :=
  mkEntry [c] (str "Empieza por " ++ [c] ++ str ": pregunta") ([c] ++ str "zz")

/-- A fully valid set: correct id, title, 25 entries in alphabet order,
pairwise distinct answers. -/
def goodSet : PyVal :=
  .pdict [(str "id", .pstr (str "set_01")),
          (str "title", .pstr (str "Pasalacabra")),
          (str "questions", .plist ((str "ABCDEFGHIJLMNÑOPQRSTUVXYZ").map goodEntry))]

/-- A set whose R and S entries answer "Roma" and "Róma": identical
answers up to accents.  The S entry would also violate the letter
constraint, so the error reported for it reveals which check ran first. -/
def dupSet : PyVal :=
  .pdict [(str "id", .pstr (str "set_01")),
          (str "title", .pstr (str "Pasalacabra")),
          (str "questions", .plist
            ((str "ABCDEFGHIJLMNÑOPQ").map goodEntry
              ++ [mkEntry (str "R") (str "Empieza por R: capital de Italia") (str "Roma"),
                  mkEntry (str "S") (str "Empieza por S: otra ciudad") (str "Róma")]
              ++ (str "TUVXYZ").map goodEntry))]

/-- The duplicate-answer set of `dupSet` with a wrong identity constant:
the id check precedes the per-entry loop, so the duplicate is never
reached. -/
def dupSetBadId : PyVal :=
  .pdict [(str "id", .pstr (str "set_02")),
          (str "title", .pstr (str "Pasalacabra")),
          (str "questions", .plist
            ((str "ABCDEFGHIJLMNÑOPQ").map goodEntry
              ++ [mkEntry (str "R") (str "Empieza por R: capital de Italia") (str "Roma"),
                  mkEntry (str "S") (str "Empieza por S: otra ciudad") (str "Róma")]
              ++ (str "TUVXYZ").map goodEntry))]

/-- A set of the correct length whose last questions entry is a string,
not a dict. -/
def c4Set : PyVal :=
  .pdict [(str "id", .pstr (str "set_01")),
          (str "title", .pstr (str "Pasalacabra")),
          (str "questions", .plist
            ((str "ABCDEFGHIJLMNÑOPQRSTUVXY").map goodEntry ++ [.pstr (str "x")]))]

/-- A generator whose external call fails (transport error) on passes 1
and 2 and produces a fully valid set on pass 3. -/
def genTransportThenGood : Nat → Except Err PyVal :=
  fun a => if a = 3 then .ok goodSet else .error .transport

/-- A fixer that answers "OK", i.e. returns its candidate unchanged. -/
def fixUnchanged : Nat → PyVal → Except Err PyVal := fun _ o => .ok o

/-! Claim theorems. -/

/-- C1 (code bug witness): with a generator that fails on passes 1 and 2
and returns a fully valid set on pass 3 = MAX_PASSES, and a fixer that
returns its input unchanged, pass 3 fully succeeds (validation passes,
the fixer runs, re-validation passes, the loop breaks holding the final
set), yet `main` takes the fatal branch — it raises the
"failed after 3 passes" RuntimeError carrying the stale transport error
instead of writing the set, because its final test
`last_err is not None and attempt == MAX_PASSES` also fires when the
last pass succeeded after an earlier pass recorded an error. -/
theorem c1_success_on_last_pass_still_fatal :
    validate_set goodSet = .ok () ∧
    runLoop genTransportThenGood fixUnchanged =
      ⟨some goodSet, some .transport, MAX_PASSES⟩ ∧
    mainOutcome genTransportThenGood fixUnchanged = .fatal (some .transport) :=
  ⟨rfl, rfl, rfl⟩

/-- C2: for every structurally invalid candidate (one `validate_set`
rejects with error `e`), a generator that always returns it and a fixer
that always returns the same candidate drive the repair loop through
exactly MAX_PASSES passes (the exit value of the loop counter is
MAX_PASSES and the loop is bounded by construction), after which `main`
terminates fatally carrying the last recorded validation error and
writes nothing. -/
theorem c2_exhaustion_exactly_max_passes (bad : PyVal) (e : Err)
    (h : validate_set bad = .error e) :
    runLoop (fun _ => .ok bad) (fun _ _ => .ok bad) =
      ⟨some bad, some e, MAX_PASSES⟩ ∧
    mainOutcome (fun _ => .ok bad) (fun _ _ => .ok bad) = .fatal (some e) := by
  have hloop : runLoop (fun _ => .ok bad) (fun _ _ => .ok bad) =
      ⟨some bad, some e, MAX_PASSES⟩ := by
    simp [runLoop, MAX_PASSES, runLoopAux, onePass, runValidateFix, h]
  exact ⟨hloop, by simp [mainOutcome, hloop, MAX_PASSES]⟩

/-- C2 witness: the empty dict is rejected (wrong id), and the loop run
on it ends fatally with that error after MAX_PASSES passes. -/
theorem c2_exhaustion_exactly_max_passes_witness :
    validate_set (.pdict []) = .error .badId ∧
    runLoop (fun _ => .ok (.pdict [])) (fun _ _ => .ok (.pdict [])) =
      ⟨some (.pdict []), some .badId, MAX_PASSES⟩ ∧
    mainOutcome (fun _ => .ok (.pdict [])) (fun _ _ => .ok (.pdict [])) =
      .fatal (some .badId) :=
  ⟨rfl, (c2_exhaustion_exactly_max_passes (.pdict []) .badId rfl).1,
    (c2_exhaustion_exactly_max_passes (.pdict []) .badId rfl).2⟩

/-- C4 (code bug witness): on a set of the correct length containing a
non-dict questions entry, `validate_set` raises the incidental
`AttributeError` from the `q.get("letter")` comprehension (which runs
before the letter-sequence comparison), not the descriptive
"each question entry must be an object" validation failure: that
per-entry check is unreachable for JSON data. -/
theorem c4_nondict_entry_raises_attribute_error :
    validate_set c4Set = .error .attributeGet ∧
    Err.attributeGet ≠ Err.entryNotObject :=
  ⟨rfl, by decide⟩

/-- C7: with expected letter "A" and the starts-with question binding A,
the answer "Águila" passes `enforce_letter_constraint` (its accented
first letter normalizes to A), while "Cóndor" fails with the
letter-constraint error, since the first character of the
letter-check-normalized answer must equal the expected letter. -/
theorem c7_letter_constraint_examples :
    enforce_letter_constraint (str "A") (str "Empieza por A: Águila") (str "Águila") =
      .ok () ∧
    enforce_letter_constraint (str "A") (str "Empieza por A: Águila") (str "Cóndor") =
      .error (.answerStart (str "A") (str "Cóndor")) :=
  ⟨rfl, rfl⟩

/-- C10: `normalize_for_letter_check` rewrites every occurrence of the
literal placeholder "__ENYE__" to Ñ: the input "__ENYE__" contains no
designated letter at all, yet normalizes to "Ñ", and both placeholder
occurrences in "a__ENYE__b__ENYE__" are rewritten. -/
theorem c10_placeholder_unescaped :
    normalize_for_letter_check (str "__ENYE__") = str "Ñ" ∧
    ('ñ' ∉ str "__ENYE__" ∧ 'Ñ' ∉ str "__ENYE__") ∧
    'Ñ' ∈ normalize_for_letter_check (str "__ENYE__") ∧
    normalize_for_letter_check (str "a__ENYE__b__ENYE__") = str "aÑbÑ" :=
  ⟨rfl, by decide, by decide, rfl⟩

/-! Structural lemmas about `concatMap` and `pyReplace`. -/

theorem concatMap_append (f : Char → List Char) (s t : List Char) :
    concatMap f (s ++ t) = concatMap f s ++ concatMap f t := by
  induction s with
  | nil => rfl
  | cons c cs ih => simp [concatMap, ih]

theorem concatMap_assoc (f g : Char → List Char) (s : List Char) :
    concatMap g (concatMap f s) = concatMap (fun c => concatMap g (f c)) s := by
  induction s with
  | nil => rfl
  | cons c cs ih => simp [concatMap, concatMap_append, ih]

theorem strip_accents_concatMap (f : Char → List Char) (s : List Char) :
    strip_accents (concatMap f s) = concatMap (fun c => strip_accents (f c)) s :=
  concatMap_assoc f stripChar s

theorem pyReplaceAux_fuel (pat rep : List Char) :
    ∀ (f₁ : Nat) (s : List Char), s.length ≤ f₁ → ∀ (f₂ : Nat), s.length ≤ f₂ →
      pyReplaceAux pat rep f₁ s = pyReplaceAux pat rep f₂ s := by
  intro f₁
  induction f₁ with
  | zero =>
    intro s hs f₂ _
    have hnil : s = [] := List.eq_nil_of_length_eq_zero (Nat.le_zero.mp hs)
    subst hnil
    cases f₂ <;> rfl
  | succ f ih =>
    intro s hs f₂ hs2
    cases s with
    | nil => cases f₂ <;> rfl
    | cons c cs =>
      cases f₂ with
      | zero => simp at hs2
      | succ f₂' =>
        by_cases hcond : (!pat.isEmpty && pat.isPrefixOf (c :: cs)) = true
        · have hpat : 0 < pat.length := by
            have hcond' := hcond
            rw [Bool.and_eq_true] at hcond'
            rcases hcond' with ⟨h1, _⟩
            cases pat with
            | nil => simp at h1
            | cons _ _ => simp
          simp only [pyReplaceAux, if_pos hcond]
          congr 1
          apply ih
          · rw [List.length_drop]
            simp only [List.length_cons] at hs ⊢
            omega
          · rw [List.length_drop]
            simp only [List.length_cons] at hs2 ⊢
            omega
        · simp only [pyReplaceAux, if_neg hcond]
          congr 1
          apply ih
          · simp only [List.length_cons] at hs; omega
          · simp only [List.length_cons] at hs2; omega

theorem pyReplace_cons_ne (pat rep : List Char) (p : Char) (ps : List Char) (c : Char)
    (t : List Char) (hp : pat = p :: ps) (h : p ≠ c) :
    pyReplace pat rep (c :: t) = c :: pyReplace pat rep t := by
  subst hp
  have hbeq : (p == c) = false := beq_eq_false_iff_ne.mpr h
  have hpre : (p :: ps).isPrefixOf (c :: t) = false := by
    simp [List.isPrefixOf, hbeq]
  show pyReplaceAux (p :: ps) rep (t.length + 1) (c :: t) = _
  simp [pyReplace, pyReplaceAux, hpre]

theorem isPrefixOf_append_self (l t : List Char) : l.isPrefixOf (l ++ t) = true := by
  induction l with
  | nil => cases t <;> rfl
  | cons c cs ih => simp [List.isPrefixOf, ih]

theorem pyReplace_head_match (pat rep t : List Char) (h : pat ≠ []) :
    pyReplace pat rep (pat ++ t) = rep ++ pyReplace pat rep t := by
  cases pat with
  | nil => exact absurd rfl h
  | cons p ps =>
    have hpre := isPrefixOf_append_self (p :: ps) t
    rw [List.cons_append] at hpre
    have hdrop : (p :: (ps ++ t)).drop (p :: ps).length = t := by
      have := List.drop_left (p :: ps) t
      rwa [List.cons_append] at this
    show pyReplaceAux (p :: ps) rep ((ps ++ t).length + 1) (p :: (ps ++ t)) = _
    simp only [pyReplaceAux, hpre, Bool.and_true, List.isEmpty_cons, Bool.not_false,
      if_pos]
    rw [hdrop]
    congr 1
    apply pyReplaceAux_fuel
    · rw [List.length_append]; omega
    · exact Nat.le_refl _

theorem pyReplace_single (a : Char) (r : List Char) (s : List Char) :
    pyReplace [a] r s = concatMap (fun c => if c = a then r else [c]) s := by
  induction s with
  | nil => rfl
  | cons c cs ih =>
    by_cases hc : c = a
    · subst hc
      have hm := pyReplace_head_match [c] r cs (by simp)
      rw [show [c] ++ cs = c :: cs from rfl] at hm
      rw [hm, ih]
      simp [concatMap]
    · rw [pyReplace_cons_ne [a] r a [] c cs rfl (fun he => hc he.symm), ih]
      simp [concatMap, hc]

/-! Lemmas about the contains-check normalization. -/

theorem strip_accents_replace_n (u : List Char) :
    strip_accents (pyReplace (str "ñ") (str "n") u) = strip_accents u := by
  rw [show str "ñ" = ['ñ'] from rfl, show str "n" = ['n'] from rfl, pyReplace_single,
    strip_accents_concatMap]
  have hfun : (fun c => strip_accents (if c = 'ñ' then ['n'] else [c])) = stripChar := by
    funext c
    by_cases hc : c = 'ñ'
    · subst hc; decide
    · simp [hc, strip_accents, concatMap]
  rw [hfun]
  rfl

theorem ncc_eq_fold (s : List Char) :
    normalize_for_contains_check s =
      pyStrip (collapseWs ((caseAccentFold s).map
        (fun c => if pyIsWordChar c || pyIsSpace c then c else ' '))) := by
  unfold normalize_for_contains_check caseAccentFold
  rw [strip_accents_replace_n]

/-- C8: `enforce_answer_not_in_question` raises its failure exactly when
the contains-check normalization of the answer is non-empty and occurs
as a substring of the contains-check normalization of the question; in
particular an answer with empty normalization never fails the check. -/
theorem c8_leakage_iff (question answer : List Char) :
    enforce_answer_not_in_question question answer = .error .leakage ↔
      (normalize_for_contains_check answer ≠ [] ∧
        pyInStr (normalize_for_contains_check answer)
          (normalize_for_contains_check question) = true) := by
  have hb : (!(normalize_for_contains_check answer).isEmpty &&
        pyInStr (normalize_for_contains_check answer)
          (normalize_for_contains_check question)) = true ↔
      (normalize_for_contains_check answer ≠ [] ∧
        pyInStr (normalize_for_contains_check answer)
          (normalize_for_contains_check question) = true) := by
    rw [Bool.and_eq_true, Bool.not_eq_true']
    constructor
    · rintro ⟨h1, h2⟩
      refine ⟨fun hnil => ?_, h2⟩
      rw [hnil] at h1
      simp at h1
    · rintro ⟨h1, h2⟩
      refine ⟨?_, h2⟩
      cases he : (normalize_for_contains_check answer).isEmpty
      · rfl
      · exact absurd (List.isEmpty_iff.mp he) h1
  unfold enforce_answer_not_in_question
  by_cases hcond : (!(normalize_for_contains_check answer).isEmpty &&
      pyInStr (normalize_for_contains_check answer)
        (normalize_for_contains_check question)) = true
  · rw [if_pos hcond]
    exact iff_of_true rfl (hb.mp hcond)
  · rw [if_neg hcond]
    exact iff_of_false (by simp) (fun hr => hcond (hb.mpr hr))

/-- C3 (amended): two strings that agree after lowercasing and
accent-stripping — i.e. differ only in letter case or accents —
normalize identically under `normalize_for_contains_check`, and the
example pair "Córdoba!" / "cordoba" of the spec both normalize to "cordoba";
strings differing only in punctuation, however, need not normalize
identically, because punctuation is replaced by a space rather than
removed. -/
theorem c3_case_accent_equivalence :
    (∀ s₁ s₂ : List Char, caseAccentFold s₁ = caseAccentFold s₂ →
      normalize_for_contains_check s₁ = normalize_for_contains_check s₂) ∧
    normalize_for_contains_check (str "Córdoba!") = str "cordoba" ∧
    normalize_for_contains_check (str "cordoba") = str "cordoba" :=
  ⟨fun s₁ s₂ h => by rw [ncc_eq_fold, ncc_eq_fold, h], rfl, rfl⟩

/-- C3 witness: "Á" and "a" differ only in case and accents, and their
contains-check normalizations agree. -/
theorem c3_case_accent_equivalence_witness :
    caseAccentFold (str "Á") = caseAccentFold (str "a") ∧
    normalize_for_contains_check (str "Á") = normalize_for_contains_check (str "a") :=
  ⟨by decide, c3_case_accent_equivalence.1 (str "Á") (str "a") (by decide)⟩

/-- C3 counterexample: "a.b" and "ab" differ only in punctuation (they
agree after erasing punctuation, and neither differs in case or
accents), yet they normalize to "a b" and "ab" respectively — the claim
that any two strings differing only in punctuation normalize identically
is false of the code, which turns punctuation into spaces. -/
theorem c3_punctuation_counterexample :
    dropPunct (str "a.b") = dropPunct (str "ab") ∧
    normalize_for_contains_check (str "a.b") = str "a b" ∧
    normalize_for_contains_check (str "ab") = str "ab" ∧
    normalize_for_contains_check (str "a.b") ≠ normalize_for_contains_check (str "ab") :=
  ⟨rfl, rfl, rfl, by decide⟩

/-! Per-character lemmas for the letter-check normalization. -/

theorem nfdChar_deAcc_default (c : Char)
    (h : ¬(c = 'á' ∨ c = 'é' ∨ c = 'í' ∨ c = 'ó' ∨ c = 'ú' ∨ c = 'Á' ∨ c = 'É' ∨
      c = 'Í' ∨ c = 'Ó' ∨ c = 'Ú' ∨ c = 'ü' ∨ c = 'Ü' ∨ c = 'ñ' ∨ c = 'Ñ')) :
    nfdChar c = [c] ∧ deAcc c = c := by
  push_neg at h
  obtain ⟨h1, h2, h3, h4, h5, h6, h7, h8, h9, h10, h11, h12, h13, h14⟩ := h
  constructor
  · simp only [nfdChar, if_neg h1, if_neg h2, if_neg h3, if_neg h4, if_neg h5,
      if_neg h6, if_neg h7, if_neg h8, if_neg h9, if_neg h10, if_neg h11,
      if_neg h12, if_neg h13, if_neg h14]
  · simp only [deAcc, if_neg h1, if_neg h2, if_neg h3, if_neg h4, if_neg h5,
      if_neg h6, if_neg h7, if_neg h8, if_neg h9, if_neg h10, if_neg h11,
      if_neg h12, if_neg h13, if_neg h14]

theorem stripChar_eq_deAcc (c : Char) (hm : isMn c = false) :
    stripChar c = [deAcc c] := by
  by_cases h : c = 'á' ∨ c = 'é' ∨ c = 'í' ∨ c = 'ó' ∨ c = 'ú' ∨ c = 'Á' ∨ c = 'É' ∨
      c = 'Í' ∨ c = 'Ó' ∨ c = 'Ú' ∨ c = 'ü' ∨ c = 'Ü' ∨ c = 'ñ' ∨ c = 'Ñ'
  · rcases h with rfl | rfl | rfl | rfl | rfl | rfl | rfl | rfl | rfl | rfl | rfl |
      rfl | rfl | rfl <;> decide
  · obtain ⟨hn, hd⟩ := nfdChar_deAcc_default c h
    unfold stripChar
    rw [hn, hd]
    simp [List.filter, hm]

theorem deAcc_facts (c : Char) :
    deAcc c ≠ 'ñ' ∧ deAcc c ≠ 'Ñ' ∧ deAcc (deAcc c) = deAcc c ∧
    pyIsSpace (deAcc c) = pyIsSpace c ∧ (c ≠ '_' → deAcc c ≠ '_') ∧
    (isMn c = false → isMn (deAcc c) = false) := by
  by_cases h : c = 'á' ∨ c = 'é' ∨ c = 'í' ∨ c = 'ó' ∨ c = 'ú' ∨ c = 'Á' ∨ c = 'É' ∨
      c = 'Í' ∨ c = 'Ó' ∨ c = 'Ú' ∨ c = 'ü' ∨ c = 'Ü' ∨ c = 'ñ' ∨ c = 'Ñ'
  · rcases h with rfl | rfl | rfl | rfl | rfl | rfl | rfl | rfl | rfl | rfl | rfl |
      rfl | rfl | rfl <;> decide
  · obtain ⟨-, hd⟩ := nfdChar_deAcc_default c h
    push_neg at h
    obtain ⟨h1, h2, h3, h4, h5, h6, h7, h8, h9, h10, h11, h12, h13, h14⟩ := h
    rw [hd]
    exact ⟨h13, h14, hd, rfl, id, id⟩

theorem specOne_idem (c : Char) : specOne (specOne c) = specOne c := by
  by_cases hc : c = 'ñ' ∨ c = 'Ñ'
  · simp only [specOne, if_pos hc]; decide
  · simp only [specOne, if_neg hc]
    obtain ⟨hn, hN, hid, -, -, -⟩ := deAcc_facts c
    rw [if_neg (not_or.mpr ⟨hn, hN⟩), hid]

theorem specOne_space (c : Char) : pyIsSpace (specOne c) = pyIsSpace c := by
  by_cases hc : c = 'ñ' ∨ c = 'Ñ'
  · rcases hc with rfl | rfl <;> decide
  · simp only [specOne, if_neg hc]
    exact (deAcc_facts c).2.2.2.1

theorem specOne_ne_us (c : Char) (h : c ≠ '_') : specOne c ≠ '_' := by
  by_cases hc : c = 'ñ' ∨ c = 'Ñ'
  · simp only [specOne, if_pos hc]; decide
  · simp only [specOne, if_neg hc]
    exact (deAcc_facts c).2.2.2.2.1 h

theorem specOne_mn (c : Char) (h : isMn c = false) : isMn (specOne c) = false := by
  by_cases hc : c = 'ñ' ∨ c = 'Ñ'
  · simp only [specOne, if_pos hc]; decide
  · simp only [specOne, if_neg hc]
    exact (deAcc_facts c).2.2.2.2.2 h

/-! The charwise characterization of `normalize_for_letter_check` on
mark-free, placeholder-free strings. -/

theorem concatMap_congr (f g : Char → List Char) (s : List Char)
    (h : ∀ c ∈ s, f c = g c) : concatMap f s = concatMap g s := by
  induction s with
  | nil => rfl
  | cons c cs ih =>
    simp only [concatMap]
    rw [h c (List.mem_cons_self c cs),
      ih (fun d hd => h d (List.mem_cons_of_mem c hd))]

theorem nlc_eq_replace_concat (s : List Char) :
    normalize_for_letter_check s =
      pyReplace enyeBlock (str "Ñ") (concatMap phChar (pyStrip s)) := by
  unfold normalize_for_letter_check
  rw [show str "ñ" = ['ñ'] from rfl, show str "Ñ" = ['Ñ'] from rfl,
    pyReplace_single, pyReplace_single, concatMap_assoc, strip_accents_concatMap]
  refine congrArg _ (concatMap_congr _ _ _ ?_)
  intro c _
  by_cases h1 : c = 'ñ'
  · subst h1; decide
  · by_cases h2 : c = 'Ñ'
    · subst h2; decide
    · simp [h1, h2, phChar, strip_accents, concatMap]

theorem replace_concat_phChar :
    ∀ t : List Char, '_' ∉ t → (∀ c ∈ t, isMn c = false) →
      pyReplace enyeBlock (str "Ñ") (concatMap phChar t) = t.map specOne := by
  intro t
  induction t with
  | nil => intro _ _; rfl
  | cons c t' ih =>
    intro hU hM
    have hcU : c ≠ '_' := by rintro rfl; exact hU (List.mem_cons_self _ _)
    have hU' : '_' ∉ t' := fun h => hU (List.mem_cons_of_mem c h)
    have hcM : isMn c = false := hM c (List.mem_cons_self c t')
    have hM' : ∀ d ∈ t', isMn d = false := fun d hd => hM d (List.mem_cons_of_mem c hd)
    by_cases hc : c = 'ñ' ∨ c = 'Ñ'
    · rw [show concatMap phChar (c :: t') = phChar c ++ concatMap phChar t' from rfl,
        show phChar c = enyeBlock from by simp [phChar, hc],
        pyReplace_head_match enyeBlock (str "Ñ") _ (by decide), ih hU' hM',
        show (c :: t').map specOne = specOne c :: t'.map specOne from rfl,
        show specOne c = 'Ñ' from by simp [specOne, hc]]
      rfl
    · rw [show concatMap phChar (c :: t') = phChar c ++ concatMap phChar t' from rfl,
        show phChar c = [deAcc c] from by
          simp only [phChar, if_neg hc]; exact stripChar_eq_deAcc c hcM,
        show [deAcc c] ++ concatMap phChar t' = deAcc c :: concatMap phChar t' from rfl,
        pyReplace_cons_ne enyeBlock (str "Ñ") '_' (str "_ENYE__") (deAcc c) _ rfl
          (Ne.symm ((deAcc_facts c).2.2.2.2.1 hcU)), ih hU' hM',
        show (c :: t').map specOne = specOne c :: t'.map specOne from rfl,
        show specOne c = deAcc c from by simp only [specOne, if_neg hc]]

theorem pyStrip_mem (s : List Char) (c : Char) (h : c ∈ pyStrip s) : c ∈ s := by
  unfold pyStrip at h
  rw [List.mem_reverse] at h
  have h2 := (List.dropWhile_sublist pyIsSpace).subset h
  rw [List.mem_reverse] at h2
  exact (List.dropWhile_sublist pyIsSpace).subset h2

theorem nlc_charwise (s : List Char) (hU : '_' ∉ s)
    (hM : ∀ c ∈ s, isMn c = false) :
    normalize_for_letter_check s = (pyStrip s).map specOne := by
  rw [nlc_eq_replace_concat]
  exact replace_concat_phChar (pyStrip s)
    (fun h => hU (pyStrip_mem s '_' h))
    (fun c hc => hM c (pyStrip_mem s c hc))

/-! Whitespace-stability lemmas for `pyStrip`. -/

theorem dropWhile_head_not (p : Char → Bool) :
    ∀ (l : List Char) (c : Char), (l.dropWhile p).head? = some c → p c = false := by
  intro l
  induction l with
  | nil => intro c h; simp [List.dropWhile] at h
  | cons a l' ih =>
    intro c h
    rw [List.dropWhile_cons] at h
    by_cases ha : p a = true
    · rw [if_pos ha] at h; exact ih c h
    · rw [if_neg ha] at h
      simp at h
      rw [← h]
      simpa using ha

theorem pyStrip_getLast (s : List Char) (c : Char)
    (h : (pyStrip s).getLast? = some c) : pyIsSpace c = false := by
  unfold pyStrip at h
  rw [List.getLast?_reverse] at h
  exact dropWhile_head_not pyIsSpace _ c h

theorem pyStrip_head (s : List Char) (c : Char)
    (h : (pyStrip s).head? = some c) : pyIsSpace c = false := by
  unfold pyStrip at h
  rw [List.head?_reverse] at h
  obtain ⟨pre, hpre⟩ :=
    List.dropWhile_suffix (l := (s.dropWhile pyIsSpace).reverse) pyIsSpace
  by_cases hx : ((s.dropWhile pyIsSpace).reverse).dropWhile pyIsSpace = []
  · rw [hx] at h; simp at h
  · have h2 : ((s.dropWhile pyIsSpace).reverse).getLast? = some c := by
      rw [← hpre, List.getLast?_append_of_ne_nil pre hx]
      exact h
    rw [List.getLast?_reverse] at h2
    exact dropWhile_head_not pyIsSpace s c h2

theorem pyStrip_eq_self (t : List Char)
    (hh : ∀ c, t.head? = some c → pyIsSpace c = false)
    (hl : ∀ c, t.getLast? = some c → pyIsSpace c = false) :
    pyStrip t = t := by
  have e1 : t.dropWhile pyIsSpace = t := by
    cases t with
    | nil => rfl
    | cons a t' =>
      rw [List.dropWhile_cons, hh a rfl]
      simp
  unfold pyStrip
  rw [e1]
  have e2 : t.reverse.dropWhile pyIsSpace = t.reverse := by
    cases ht : t.reverse with
    | nil => rfl
    | cons a r' =>
      have ha : t.getLast? = some a := by
        rw [← List.head?_reverse, ht]; rfl
      rw [List.dropWhile_cons, hl a ha]
      simp
  rw [e2, List.reverse_reverse]

/-- C6 (amended): on strings containing no standalone combining-mark
character and no underscore (the placeholder character), the
letter-check normalization acts characterwise on the trimmed input:
every precomposed ñ/Ñ is mapped to the distinct symbol Ñ rather than
folded into its base letter, and every other character is replaced by
its diacritic-free base (`specOne` sends ñ and Ñ to Ñ and every other
character to `deAcc`, its accent-stripped form); in particular "Mañana"
normalizes to "MaÑana" and "á" to "a".  A decomposed ñ (n followed by a
combining tilde) is NOT preserved — see the counterexample. -/
theorem c6_enye_preservation :
    (∀ s : List Char, '_' ∉ s → (∀ c ∈ s, isMn c = false) →
      normalize_for_letter_check s = (pyStrip s).map specOne) ∧
    specOne 'ñ' = 'Ñ' ∧ specOne 'Ñ' = 'Ñ' ∧ specOne 'á' = 'a' ∧
    normalize_for_letter_check (str "Mañana") = str "MaÑana" ∧
    normalize_for_letter_check (str "á") = str "a" :=
  ⟨nlc_charwise, rfl, rfl, rfl, rfl, rfl⟩

/-- C6 witness: the hypotheses hold of "Mañana" and the charwise
description applies to it. -/
theorem c6_enye_preservation_witness :
    ('_' ∉ str "Mañana" ∧ ∀ c ∈ str "Mañana", isMn c = false) ∧
    normalize_for_letter_check (str "Mañana") = (pyStrip (str "Mañana")).map specOne :=
  ⟨⟨by decide, by decide⟩, c6_enye_preservation.1 (str "Mañana") (by decide) (by decide)⟩

/-- C6 counterexample: the string "Mañana" written with a decomposed ñ
(the substring "n" followed by the combining tilde U+0303) contains the
designated letter in an accent form, yet `normalize_for_letter_check`
folds it to the bare base letter: the result is "Manana" and contains no
Ñ at all — refuting the claim for "any case or accent form". -/
theorem c6_decomposed_enye_counterexample :
    pyInStr (['n', '̃']) (str "Man" ++ ['̃'] ++ str "ana") = true ∧
    normalize_for_letter_check (str "Man" ++ ['̃'] ++ str "ana") = str "Manana" ∧
    'Ñ' ∉ normalize_for_letter_check (str "Man" ++ ['̃'] ++ str "ana") :=
  ⟨rfl, rfl, by decide⟩

/-- C5 counterexample: on the string consisting of a standalone
combining acute accent, a space, and the letter a, normalization yields
" a" (trimming cannot see the leading space hidden behind the mark, and
the mark is then deleted), and a second application yields "a": the
function is not idempotent on every string. -/
theorem c5_idempotence_counterexample :
    normalize_for_letter_check (['́', ' ', 'a']) = str " a" ∧
    normalize_for_letter_check (normalize_for_letter_check (['́', ' ', 'a'])) = str "a" ∧
    normalize_for_letter_check (normalize_for_letter_check (['́', ' ', 'a'])) ≠
      normalize_for_letter_check (['́', ' ', 'a']) :=
  ⟨rfl, rfl, by decide⟩

/-! Further structural lemmas about `pyReplace` and `concatMap`, used for
the idempotence theorem. -/

theorem bool_eq_false (b : Bool) (h : ¬ b = true) : b = false := by
  cases b
  · rfl
  · exact absurd rfl h

theorem isPrefixOf_nil_left (t : List Char) : ([] : List Char).isPrefixOf t = true := by
  cases t <;> rfl

theorem isPrefixOf_cons_cons (a b : Char) (as bs : List Char) :
    (a :: as).isPrefixOf (b :: bs) = (a == b && as.isPrefixOf bs) := rfl

theorem enyeBlock_cons :
    enyeBlock = '_' :: '_' :: 'E' :: 'N' :: 'Y' :: 'E' :: '_' :: '_' :: [] := rfl

theorem pyReplace_cons_nomatch (pat rep : List Char) (c : Char) (t : List Char)
    (h : pat.isPrefixOf (c :: t) = false) :
    pyReplace pat rep (c :: t) = c :: pyReplace pat rep t := by
  show pyReplaceAux pat rep (t.length + 1) (c :: t) = _
  simp [pyReplace, pyReplaceAux, h]

theorem restore_eq_nil_iff (v : List Char) :
    pyReplace enyeBlock (str "Ñ") v = [] ↔ v = [] := by
  constructor
  · intro h
    cases v with
    | nil => rfl
    | cons c v' =>
      by_cases hm : enyeBlock.isPrefixOf (c :: v') = true
      · obtain ⟨w, hw⟩ := List.isPrefixOf_iff_prefix.mp hm
        rw [← hw, pyReplace_head_match _ _ _ (by decide),
          show str "Ñ" = ['Ñ'] from rfl] at h
        simp at h
      · rw [pyReplace_cons_nomatch _ _ _ _ (bool_eq_false _ hm)] at h
        simp at h
  · rintro rfl
    rfl

theorem mem_concatMap (f : Char → List Char) (t : List Char) (c : Char)
    (h : c ∈ concatMap f t) : ∃ a ∈ t, c ∈ f a := by
  induction t with
  | nil => simp [concatMap] at h
  | cons a t' ih =>
    rw [show concatMap f (a :: t') = f a ++ concatMap f t' from rfl,
      List.mem_append] at h
    rcases h with h | h
    · exact ⟨a, List.mem_cons_self a t', h⟩
    · obtain ⟨b, hb, hcb⟩ := ih h
      exact ⟨b, List.mem_cons_of_mem a hb, hcb⟩

theorem mem_pyReplaceAux (pat rep : List Char) :
    ∀ (fuel : Nat) (s : List Char) (c : Char), c ∈ pyReplaceAux pat rep fuel s →
      c ∈ rep ∨ c ∈ s := by
  intro fuel
  induction fuel with
  | zero =>
    intro s c h
    cases s with
    | nil => simp [pyReplaceAux] at h
    | cons d s' => exact Or.inr h
  | succ fuel ih =>
    intro s c h
    cases s with
    | nil => simp [pyReplaceAux] at h
    | cons d s' =>
      by_cases hcond : (!pat.isEmpty && pat.isPrefixOf (d :: s')) = true
      · rw [show pyReplaceAux pat rep (fuel + 1) (d :: s')
            = rep ++ pyReplaceAux pat rep fuel ((d :: s').drop pat.length) from by
            simp [pyReplaceAux, hcond], List.mem_append] at h
        rcases h with h | h
        · exact Or.inl h
        · rcases ih _ c h with h | h
          · exact Or.inl h
          · exact Or.inr (List.drop_subset _ _ h)
      · rw [show pyReplaceAux pat rep (fuel + 1) (d :: s')
            = d :: pyReplaceAux pat rep fuel s' from by simp [pyReplaceAux, hcond]] at h
        rcases List.mem_cons.mp h with rfl | h
        · exact Or.inr (List.mem_cons_self _ _)
        · rcases ih s' c h with h | h
          · exact Or.inl h
          · exact Or.inr (List.mem_cons_of_mem _ h)

theorem mem_pyReplace (pat rep s : List Char) (c : Char)
    (h : c ∈ pyReplace pat rep s) : c ∈ rep ∨ c ∈ s :=
  mem_pyReplaceAux pat rep s.length s c h

theorem concatMap_id (s : List Char) : concatMap (fun c => [c]) s = s := by
  induction s with
  | nil => rfl
  | cons c cs ih => simp [concatMap, ih]

/-! The placeholder-restoring replace, applied after re-expanding Ñ to
the placeholder, re-contracts exactly the expanded blocks: on Ñ-free
input the composition restore-expand-restore equals restore.  The peel
lemmas rule out spurious pattern occurrences straddling a literal text /
expanded block boundary. -/

theorem peel_step (x : Char) (q : List Char) (v : List Char) (hN : 'Ñ' ∉ v)
    (hm : enyeBlock.isPrefixOf v = false)
    (hpre : (x :: q).isPrefixOf
        (concatMap enyeExpand (pyReplace enyeBlock (str "Ñ") v)) = true) :
    ∃ v', v = x :: v' ∧ 'Ñ' ∉ v' ∧
      q.isPrefixOf (concatMap enyeExpand (pyReplace enyeBlock (str "Ñ") v')) = true := by
  cases v with
  | nil =>
    rw [show concatMap enyeExpand (pyReplace enyeBlock (str "Ñ") []) = [] from rfl] at hpre
    rw [show (x :: q).isPrefixOf ([] : List Char) = false from rfl] at hpre
    exact Bool.noConfusion hpre
  | cons c v' =>
    have hc : c ≠ 'Ñ' := by rintro rfl; exact hN (List.mem_cons_self _ _)
    rw [pyReplace_cons_nomatch _ _ _ _ hm,
      show concatMap enyeExpand (c :: pyReplace enyeBlock (str "Ñ") v')
          = enyeExpand c ++ concatMap enyeExpand (pyReplace enyeBlock (str "Ñ") v') from rfl,
      show enyeExpand c = [c] from by simp [enyeExpand, hc],
      List.singleton_append, isPrefixOf_cons_cons, Bool.and_eq_true] at hpre
    obtain ⟨hxc, hq⟩ := hpre
    have hxc' : x = c := eq_of_beq hxc
    subst hxc'
    exact ⟨v', rfl, fun hmem => hN (List.mem_cons_of_mem _ hmem), hq⟩

theorem restore_peel6 (v : List Char) (hN : 'Ñ' ∉ v)
    (hpre : (['_'] : List Char).isPrefixOf
        (concatMap enyeExpand (pyReplace enyeBlock (str "Ñ") v)) = true) :
    (['_'] : List Char).isPrefixOf v = true := by
  by_cases hm : enyeBlock.isPrefixOf v = true
  · obtain ⟨w, hw⟩ := List.isPrefixOf_iff_prefix.mp hm
    rw [← hw, enyeBlock_cons, List.cons_append, isPrefixOf_cons_cons, isPrefixOf_nil_left]
    rfl
  · obtain ⟨v', rfl, -, -⟩ := peel_step '_' [] v hN (bool_eq_false _ hm) hpre
    rw [isPrefixOf_cons_cons, isPrefixOf_nil_left]
    rfl

theorem restore_peel5 (v : List Char) (hN : 'Ñ' ∉ v)
    (hpre : (['_', '_'] : List Char).isPrefixOf
        (concatMap enyeExpand (pyReplace enyeBlock (str "Ñ") v)) = true) :
    (['_', '_'] : List Char).isPrefixOf v = true := by
  by_cases hm : enyeBlock.isPrefixOf v = true
  · obtain ⟨w, hw⟩ := List.isPrefixOf_iff_prefix.mp hm
    rw [← hw, enyeBlock_cons, List.cons_append, List.cons_append,
      isPrefixOf_cons_cons, isPrefixOf_cons_cons, isPrefixOf_nil_left]
    rfl
  · obtain ⟨v', rfl, hN', hq⟩ := peel_step '_' ['_'] v hN (bool_eq_false _ hm) hpre
    rw [isPrefixOf_cons_cons, restore_peel6 v' hN' hq]
    rfl

theorem restore_peel4 (v : List Char) (hN : 'Ñ' ∉ v)
    (hpre : (['E', '_', '_'] : List Char).isPrefixOf
        (concatMap enyeExpand (pyReplace enyeBlock (str "Ñ") v)) = true) :
    (['E', '_', '_'] : List Char).isPrefixOf v = true := by
  by_cases hm : enyeBlock.isPrefixOf v = true
  · obtain ⟨w, hw⟩ := List.isPrefixOf_iff_prefix.mp hm
    rw [← hw, pyReplace_head_match _ _ _ (by decide),
      show str "Ñ" = ['Ñ'] from rfl, List.singleton_append] at hpre
    rw [show (['E', '_', '_'] : List Char).isPrefixOf
        (concatMap enyeExpand ('Ñ' :: pyReplace enyeBlock ['Ñ'] w)) = false from rfl] at hpre
    exact Bool.noConfusion hpre
  · obtain ⟨v', rfl, hN', hq⟩ := peel_step 'E' ['_', '_'] v hN (bool_eq_false _ hm) hpre
    rw [isPrefixOf_cons_cons, restore_peel5 v' hN' hq]
    rfl

theorem restore_peel3 (v : List Char) (hN : 'Ñ' ∉ v)
    (hpre : (['Y', 'E', '_', '_'] : List Char).isPrefixOf
        (concatMap enyeExpand (pyReplace enyeBlock (str "Ñ") v)) = true) :
    (['Y', 'E', '_', '_'] : List Char).isPrefixOf v = true := by
  by_cases hm : enyeBlock.isPrefixOf v = true
  · obtain ⟨w, hw⟩ := List.isPrefixOf_iff_prefix.mp hm
    rw [← hw, pyReplace_head_match _ _ _ (by decide),
      show str "Ñ" = ['Ñ'] from rfl, List.singleton_append] at hpre
    rw [show (['Y', 'E', '_', '_'] : List Char).isPrefixOf
        (concatMap enyeExpand ('Ñ' :: pyReplace enyeBlock ['Ñ'] w)) = false from rfl] at hpre
    exact Bool.noConfusion hpre
  · obtain ⟨v', rfl, hN', hq⟩ := peel_step 'Y' ['E', '_', '_'] v hN (bool_eq_false _ hm) hpre
    rw [isPrefixOf_cons_cons, restore_peel4 v' hN' hq]
    rfl

theorem restore_peel2 (v : List Char) (hN : 'Ñ' ∉ v)
    (hpre : (['N', 'Y', 'E', '_', '_'] : List Char).isPrefixOf
        (concatMap enyeExpand (pyReplace enyeBlock (str "Ñ") v)) = true) :
    (['N', 'Y', 'E', '_', '_'] : List Char).isPrefixOf v = true := by
  by_cases hm : enyeBlock.isPrefixOf v = true
  · obtain ⟨w, hw⟩ := List.isPrefixOf_iff_prefix.mp hm
    rw [← hw, pyReplace_head_match _ _ _ (by decide),
      show str "Ñ" = ['Ñ'] from rfl, List.singleton_append] at hpre
    rw [show (['N', 'Y', 'E', '_', '_'] : List Char).isPrefixOf
        (concatMap enyeExpand ('Ñ' :: pyReplace enyeBlock ['Ñ'] w)) = false from rfl] at hpre
    exact Bool.noConfusion hpre
  · obtain ⟨v', rfl, hN', hq⟩ := peel_step 'N' ['Y', 'E', '_', '_'] v hN (bool_eq_false _ hm) hpre
    rw [isPrefixOf_cons_cons, restore_peel3 v' hN' hq]
    rfl

theorem restore_peel1 (v : List Char) (hN : 'Ñ' ∉ v)
    (hpre : (['E', 'N', 'Y', 'E', '_', '_'] : List Char).isPrefixOf
        (concatMap enyeExpand (pyReplace enyeBlock (str "Ñ") v)) = true) :
    (['E', 'N', 'Y', 'E', '_', '_'] : List Char).isPrefixOf v = true := by
  by_cases hm : enyeBlock.isPrefixOf v = true
  · obtain ⟨w, hw⟩ := List.isPrefixOf_iff_prefix.mp hm
    rw [← hw, pyReplace_head_match _ _ _ (by decide),
      show str "Ñ" = ['Ñ'] from rfl, List.singleton_append] at hpre
    rw [show (['E', 'N', 'Y', 'E', '_', '_'] : List Char).isPrefixOf
        (concatMap enyeExpand ('Ñ' :: pyReplace enyeBlock ['Ñ'] w)) = false from rfl] at hpre
    exact Bool.noConfusion hpre
  · obtain ⟨v', rfl, hN', hq⟩ := peel_step 'E' ['N', 'Y', 'E', '_', '_'] v hN (bool_eq_false _ hm) hpre
    rw [isPrefixOf_cons_cons, restore_peel2 v' hN' hq]
    rfl

theorem restore_peel0 (v : List Char) (hN : 'Ñ' ∉ v)
    (hpre : (['_', 'E', 'N', 'Y', 'E', '_', '_'] : List Char).isPrefixOf
        (concatMap enyeExpand (pyReplace enyeBlock (str "Ñ") v)) = true) :
    (['_', 'E', 'N', 'Y', 'E', '_', '_'] : List Char).isPrefixOf v = true := by
  by_cases hm : enyeBlock.isPrefixOf v = true
  · obtain ⟨w, hw⟩ := List.isPrefixOf_iff_prefix.mp hm
    rw [← hw, pyReplace_head_match _ _ _ (by decide),
      show str "Ñ" = ['Ñ'] from rfl, List.singleton_append] at hpre
    rw [show (['_', 'E', 'N', 'Y', 'E', '_', '_'] : List Char).isPrefixOf
        (concatMap enyeExpand ('Ñ' :: pyReplace enyeBlock ['Ñ'] w)) = false from rfl] at hpre
    exact Bool.noConfusion hpre
  · obtain ⟨v', rfl, hN', hq⟩ := peel_step '_' ['E', 'N', 'Y', 'E', '_', '_'] v hN (bool_eq_false _ hm) hpre
    rw [isPrefixOf_cons_cons, restore_peel1 v' hN' hq]
    rfl

theorem restore_ph_restore_aux :
    ∀ (n : Nat) (v : List Char), v.length ≤ n → 'Ñ' ∉ v →
      pyReplace enyeBlock (str "Ñ")
          (concatMap enyeExpand (pyReplace enyeBlock (str "Ñ") v)) =
        pyReplace enyeBlock (str "Ñ") v := by
  intro n
  induction n with
  | zero =>
    intro v hv _
    have hnil : v = [] := List.eq_nil_of_length_eq_zero (Nat.le_zero.mp hv)
    subst hnil
    rfl
  | succ n ih =>
    intro v hv hN
    by_cases hm : enyeBlock.isPrefixOf v = true
    · obtain ⟨w, hw⟩ := List.isPrefixOf_iff_prefix.mp hm
      subst hw
      have hNw : 'Ñ' ∉ w := fun h => hN (List.mem_append_right _ h)
      have hlen : w.length ≤ n := by
        rw [List.length_append] at hv
        have h8 : enyeBlock.length = 8 := rfl
        omega
      rw [pyReplace_head_match _ _ _ (by decide),
        show str "Ñ" = ['Ñ'] from rfl, List.singleton_append,
        show concatMap enyeExpand ('Ñ' :: pyReplace enyeBlock ['Ñ'] w)
            = enyeBlock ++ concatMap enyeExpand (pyReplace enyeBlock ['Ñ'] w) from rfl,
        pyReplace_head_match _ _ _ (by decide), List.singleton_append]
      exact congrArg (List.cons 'Ñ') (ih w hlen hNw)
    · cases v with
      | nil => rfl
      | cons c v' =>
        have hc : c ≠ 'Ñ' := by rintro rfl; exact hN (List.mem_cons_self _ _)
        have hN' : 'Ñ' ∉ v' := fun h => hN (List.mem_cons_of_mem _ h)
        rw [pyReplace_cons_nomatch _ _ _ _ (bool_eq_false _ hm),
          show concatMap enyeExpand (c :: pyReplace enyeBlock (str "Ñ") v')
              = enyeExpand c ++ concatMap enyeExpand (pyReplace enyeBlock (str "Ñ") v') from rfl,
          show enyeExpand c = [c] from by simp [enyeExpand, hc], List.singleton_append]
        have hsp : enyeBlock.isPrefixOf
            (c :: concatMap enyeExpand (pyReplace enyeBlock (str "Ñ") v')) = false := by
          by_cases hb : enyeBlock.isPrefixOf
              (c :: concatMap enyeExpand (pyReplace enyeBlock (str "Ñ") v')) = true
          · exfalso
            rw [enyeBlock_cons, isPrefixOf_cons_cons, Bool.and_eq_true] at hb
            obtain ⟨hbc, hb2⟩ := hb
            have hcu : '_' = c := eq_of_beq hbc
            have h0 := restore_peel0 v' hN' hb2
            apply hm
            rw [enyeBlock_cons, isPrefixOf_cons_cons, ← hcu, h0]
            rfl
          · exact bool_eq_false _ hb
        rw [pyReplace_cons_nomatch _ _ _ _ hsp]
        have hv'len : v'.length ≤ n := by
          simp only [List.length_cons] at hv
          omega
        exact congrArg (List.cons c) (ih v' hv'len hN')

theorem restore_ph_restore (v : List Char) (hN : 'Ñ' ∉ v) :
    pyReplace enyeBlock (str "Ñ")
        (concatMap enyeExpand (pyReplace enyeBlock (str "Ñ") v)) =
      pyReplace enyeBlock (str "Ñ") v :=
  restore_ph_restore_aux v.length v (Nat.le_refl _) hN

/-! Character and whitespace facts about the normalization pipeline,
needed to show that a normalized string is fixed by the trimming,
ñ-folding and accent-stripping stages of a second pass. -/

theorem restore_head (v : List Char) (c : Char)
    (h : (pyReplace enyeBlock (str "Ñ") v).head? = some c) :
    c = 'Ñ' ∨ v.head? = some c := by
  cases v with
  | nil =>
    rw [show pyReplace enyeBlock (str "Ñ") [] = [] from rfl] at h
    simp at h
  | cons d v' =>
    by_cases hm : enyeBlock.isPrefixOf (d :: v') = true
    · obtain ⟨w, hw⟩ := List.isPrefixOf_iff_prefix.mp hm
      rw [← hw, pyReplace_head_match _ _ _ (by decide),
        show str "Ñ" = ['Ñ'] from rfl, List.singleton_append] at h
      simp at h
      exact Or.inl h.symm
    · rw [pyReplace_cons_nomatch _ _ _ _ (bool_eq_false _ hm)] at h
      simp at h
      exact Or.inr (by rw [h]; rfl)

theorem restore_getLast_aux :
    ∀ (n : Nat) (v : List Char), v.length ≤ n → ∀ c,
      (pyReplace enyeBlock (str "Ñ") v).getLast? = some c →
      c = 'Ñ' ∨ v.getLast? = some c := by
  intro n
  induction n with
  | zero =>
    intro v hv c h
    have hnil : v = [] := List.eq_nil_of_length_eq_zero (Nat.le_zero.mp hv)
    subst hnil
    rw [show pyReplace enyeBlock (str "Ñ") [] = [] from rfl] at h
    simp at h
  | succ n ih =>
    intro v hv c h
    cases v with
    | nil =>
      rw [show pyReplace enyeBlock (str "Ñ") [] = [] from rfl] at h
      simp at h
    | cons d v' =>
      by_cases hm : enyeBlock.isPrefixOf (d :: v') = true
      · obtain ⟨w, hw⟩ := List.isPrefixOf_iff_prefix.mp hm
        rw [← hw] at h hv
        rw [pyReplace_head_match _ _ _ (by decide),
          show str "Ñ" = ['Ñ'] from rfl] at h
        by_cases hR : pyReplace enyeBlock ['Ñ'] w = []
        · rw [hR] at h
          simp at h
          exact Or.inl h.symm
        · rw [List.getLast?_append_of_ne_nil _ hR] at h
          have hlen : w.length ≤ n := by
            rw [List.length_append] at hv
            have h8 : enyeBlock.length = 8 := rfl
            omega
          rcases ih w hlen c h with h' | h'
          · exact Or.inl h'
          · right
            have hwne : w ≠ [] := by
              rintro rfl
              exact hR rfl
            rw [← hw, List.getLast?_append_of_ne_nil _ hwne]
            exact h'
      · rw [pyReplace_cons_nomatch _ _ _ _ (bool_eq_false _ hm)] at h
        by_cases hR : pyReplace enyeBlock (str "Ñ") v' = []
        · rw [hR] at h
          simp at h
          right
          have hv' : v' = [] := (restore_eq_nil_iff v').mp hR
          subst hv'
          simp [h]
        · rw [show (d :: pyReplace enyeBlock (str "Ñ") v')
              = [d] ++ pyReplace enyeBlock (str "Ñ") v' from rfl,
            List.getLast?_append_of_ne_nil _ hR] at h
          have hv'len : v'.length ≤ n := by
            simp only [List.length_cons] at hv
            omega
          rcases ih v' hv'len c h with h' | h'
          · exact Or.inl h'
          · right
            have hv'ne : v' ≠ [] := by
              rintro rfl
              exact hR rfl
            rw [show (d :: v') = [d] ++ v' from rfl,
              List.getLast?_append_of_ne_nil _ hv'ne]
            exact h'

theorem restore_getLast (v : List Char) (c : Char)
    (h : (pyReplace enyeBlock (str "Ñ") v).getLast? = some c) :
    c = 'Ñ' ∨ v.getLast? = some c :=
  restore_getLast_aux v.length v (Nat.le_refl _) c h

theorem phChar_ne_nil (a : Char) (hM : isMn a = false) : phChar a ≠ [] := by
  by_cases h : a = 'ñ' ∨ a = 'Ñ'
  · simp only [phChar, if_pos h]
    decide
  · simp only [phChar, if_neg h]
    rw [stripChar_eq_deAcc a hM]
    simp

theorem concat_phChar_head (t : List Char) (hM : ∀ a ∈ t, isMn a = false)
    (hh : ∀ a, t.head? = some a → pyIsSpace a = false) :
    ∀ d, (concatMap phChar t).head? = some d → pyIsSpace d = false := by
  intro d hd
  cases t with
  | nil =>
    rw [show concatMap phChar [] = [] from rfl] at hd
    simp at hd
  | cons a t' =>
    rw [show concatMap phChar (a :: t') = phChar a ++ concatMap phChar t' from rfl] at hd
    by_cases h : a = 'ñ' ∨ a = 'Ñ'
    · rw [show phChar a = enyeBlock from by simp [phChar, h], enyeBlock_cons,
        List.cons_append] at hd
      simp at hd
      rw [← hd]
      decide
    · rw [show phChar a = [deAcc a] from by
          simp only [phChar, if_neg h]
          exact stripChar_eq_deAcc a (hM a (List.mem_cons_self _ _)),
        List.singleton_append] at hd
      simp at hd
      rw [← hd, (deAcc_facts a).2.2.2.1]
      exact hh a rfl

theorem concat_phChar_getLast :
    ∀ (t : List Char), (∀ a ∈ t, isMn a = false) →
      (∀ a, t.getLast? = some a → pyIsSpace a = false) →
      ∀ d, (concatMap phChar t).getLast? = some d → pyIsSpace d = false := by
  intro t
  induction t with
  | nil =>
    intro _ _ d hd
    rw [show concatMap phChar [] = [] from rfl] at hd
    simp at hd
  | cons a t' ih =>
    intro hM hl d hd
    rw [show concatMap phChar (a :: t') = phChar a ++ concatMap phChar t' from rfl] at hd
    cases t' with
    | nil =>
      rw [show concatMap phChar ([] : List Char) = [] from rfl, List.append_nil] at hd
      by_cases h : a = 'ñ' ∨ a = 'Ñ'
      · rw [show phChar a = enyeBlock from by simp [phChar, h],
          show enyeBlock.getLast? = some '_' from rfl] at hd
        simp at hd
        rw [← hd]
        decide
      · rw [show phChar a = [deAcc a] from by
            simp only [phChar, if_neg h]
            exact stripChar_eq_deAcc a (hM a (List.mem_cons_self _ _))] at hd
        simp at hd
        rw [← hd, (deAcc_facts a).2.2.2.1]
        exact hl a rfl
    | cons b t'' =>
      have hne : concatMap phChar (b :: t'') ≠ [] := by
        rw [show concatMap phChar (b :: t'') = phChar b ++ concatMap phChar t'' from rfl]
        intro hcontra
        rcases List.append_eq_nil.mp hcontra with ⟨h1, -⟩
        exact phChar_ne_nil b (hM b (List.mem_cons_of_mem _ (List.mem_cons_self _ _))) h1
      rw [List.getLast?_append_of_ne_nil _ hne] at hd
      apply ih (fun x hx => hM x (List.mem_cons_of_mem _ hx)) _ d hd
      intro x hx
      apply hl
      rw [show (a :: b :: t'') = [a] ++ (b :: t'') from rfl,
        List.getLast?_append_of_ne_nil _ (by simp)]
      exact hx

theorem concat_phChar_chars (t : List Char) (hM : ∀ a ∈ t, isMn a = false) :
    ∀ c ∈ concatMap phChar t, c ≠ 'ñ' ∧ c ≠ 'Ñ' ∧ stripChar c = [c] := by
  intro c hc
  obtain ⟨a, ha, hca⟩ := mem_concatMap _ _ _ hc
  by_cases h : a = 'ñ' ∨ a = 'Ñ'
  · rw [show phChar a = enyeBlock from by simp [phChar, h]] at hca
    have hblock : ∀ x ∈ enyeBlock, x ≠ 'ñ' ∧ x ≠ 'Ñ' ∧ stripChar x = [x] := by decide
    exact hblock c hca
  · rw [show phChar a = [deAcc a] from by
        simp only [phChar, if_neg h]
        exact stripChar_eq_deAcc a (hM a ha)] at hca
    rcases List.mem_singleton.mp hca with rfl
    obtain ⟨hn, hN, hidem, -, -, hmn⟩ := deAcc_facts a
    refine ⟨hn, hN, ?_⟩
    rw [stripChar_eq_deAcc (deAcc a) (hmn (hM a ha)), hidem]

/-- C5 (amended): `normalize_for_letter_check` is idempotent on every
string that contains no standalone combining-mark character: a second
application finds the first application's output already trimmed,
ñ-free, accent-free, and with every placeholder block re-contraction
aligning exactly with an Ñ of the output, so it returns it unchanged.
Only standalone combining marks break idempotence (they hide edge
whitespace from the first trim; see the counterexample). -/
theorem c5_idempotent_no_marks (s : List Char)
    (hM : ∀ c ∈ s, isMn c = false) :
    normalize_for_letter_check (normalize_for_letter_check s) =
      normalize_for_letter_check s := by
  have htM : ∀ a ∈ pyStrip s, isMn a = false := fun a ha => hM a (pyStrip_mem s a ha)
  have h1 := nlc_eq_replace_concat s
  have hchars := concat_phChar_chars (pyStrip s) htM
  have hoChars : ∀ c ∈ pyReplace enyeBlock (str "Ñ") (concatMap phChar (pyStrip s)),
      c = 'Ñ' ∨ (c ≠ 'ñ' ∧ c ≠ 'Ñ' ∧ stripChar c = [c]) := by
    intro c hc
    rcases mem_pyReplace _ _ _ _ hc with h | h
    · have h' : c ∈ ['Ñ'] := h
      exact Or.inl (List.mem_singleton.mp h')
    · exact Or.inr (hchars c h)
  have hN_u : 'Ñ' ∉ concatMap phChar (pyStrip s) := fun h => (hchars _ h).2.1 rfl
  have hstrip_o : pyStrip (pyReplace enyeBlock (str "Ñ") (concatMap phChar (pyStrip s))) =
      pyReplace enyeBlock (str "Ñ") (concatMap phChar (pyStrip s)) := by
    apply pyStrip_eq_self
    · intro c hc
      rcases restore_head _ _ hc with rfl | hu
      · decide
      · exact concat_phChar_head (pyStrip s) htM (fun a ha => pyStrip_head s a ha) c hu
    · intro c hc
      rcases restore_getLast _ _ hc with rfl | hu
      · decide
      · exact concat_phChar_getLast (pyStrip s) htM (fun a ha => pyStrip_getLast s a ha) c hu
  have hnn : 'ñ' ∉ pyReplace enyeBlock (str "Ñ") (concatMap phChar (pyStrip s)) := by
    intro hmem
    rcases hoChars _ hmem with h | h
    · exact absurd h (by decide)
    · exact h.1 rfl
  have hrepl_n : pyReplace (str "ñ") (str "Ñ")
      (pyReplace enyeBlock (str "Ñ") (concatMap phChar (pyStrip s))) =
      pyReplace enyeBlock (str "Ñ") (concatMap phChar (pyStrip s)) := by
    show pyReplace ['ñ'] ['Ñ']
        (pyReplace enyeBlock (str "Ñ") (concatMap phChar (pyStrip s))) = _
    rw [pyReplace_single,
      concatMap_congr _ (fun c => [c]) _
        (by
          intro c hc
          have hcn : c ≠ 'ñ' := fun he => hnn (by rw [← he]; exact hc)
          rw [if_neg hcn]),
      concatMap_id]
  have hrepl_N : pyReplace (str "Ñ") enyeBlock
      (pyReplace enyeBlock (str "Ñ") (concatMap phChar (pyStrip s))) =
      concatMap enyeExpand
        (pyReplace enyeBlock (str "Ñ") (concatMap phChar (pyStrip s))) := by
    show pyReplace ['Ñ'] enyeBlock
        (pyReplace enyeBlock (str "Ñ") (concatMap phChar (pyStrip s))) = _
    rw [pyReplace_single]
    rfl
  have hstripacc : strip_accents (concatMap enyeExpand
      (pyReplace enyeBlock (str "Ñ") (concatMap phChar (pyStrip s)))) =
      concatMap enyeExpand
        (pyReplace enyeBlock (str "Ñ") (concatMap phChar (pyStrip s))) := by
    rw [strip_accents_concatMap]
    apply concatMap_congr
    intro c hc
    rcases hoChars c hc with rfl | ⟨-, hcN, hstripc⟩
    · decide
    · rw [show enyeExpand c = [c] from by simp [enyeExpand, hcN]]
      show strip_accents [c] = [c]
      simp [strip_accents, concatMap, hstripc]
  rw [h1]
  unfold normalize_for_letter_check
  rw [hstrip_o, hrepl_n, hrepl_N, hstripacc]
  exact restore_ph_restore _ hN_u

/-- C5 witness: idempotence at "Mañana". -/
theorem c5_idempotent_no_marks_witness :
    normalize_for_letter_check (normalize_for_letter_check (str "Mañana")) =
      normalize_for_letter_check (str "Mañana") :=
  c5_idempotent_no_marks (str "Mañana") (by decide)

/-- C9 (amended): inside the per-entry loop of `validate_set`, reaching
any entry (a dict with string letter/question/answer fields) whose
strict-normalized, case-folded answer key already occurs in the
accumulated seen-answers set fails with the duplicate-answer error for
that entry — universally, regardless of whether the entry would pass or
fail its letter-constraint and leakage checks and regardless of the
remaining entries.  Concretely, the full Roma/Róma set fails with the
duplicate-answer error at the second occurrence even though that entry
would also have failed the letter constraint.  (Schema-level failures
preempt the duplicate check: see the counterexample.) -/
theorem c9_duplicate_detected_universally :
    (∀ (rest : List PyVal) (seen : List (List Char))
        (d : List (List Char × PyVal)) (letter question answer : List Char),
      dictGet d (str "letter") = .pstr letter →
      dictGet d (str "question") = .pstr question →
      dictGet d (str "answer") = .pstr answer →
      (pyStrip (normalize_for_letter_check answer)).map pyLower ∈ seen →
      validateEntries (.pdict d :: rest) seen = .error (.duplicateAnswer answer)) ∧
    validate_set dupSet = .error (.duplicateAnswer (str "Róma")) ∧
    enforce_letter_constraint (str "S") (str "Empieza por S: otra ciudad") (str "Róma") =
      .error (.answerStart (str "S") (str "Róma")) := by
  refine ⟨?_, rfl, rfl⟩
  intro rest seen d letter question answer hl hq ha hmem
  have hentry : validateEntry seen (.pdict d) = .error (.duplicateAnswer answer) := by
    simp only [validateEntry, hl, hq, ha]
    rw [if_pos hmem]
  simp only [validateEntries, hentry]
  rfl

/-- C9 witness: a singleton questions list whose entry answers "Róma"
against a seen-set already containing the key "roma" fails with the
duplicate-answer error, although the entry violates its letter
constraint as well. -/
theorem c9_duplicate_detected_universally_witness :
    validateEntries
        [PyVal.pdict [(str "letter", PyVal.pstr (str "S")),
          (str "question", PyVal.pstr (str "Empieza por S: otra ciudad")),
          (str "answer", PyVal.pstr (str "Róma"))]]
        [str "roma"] = .error (.duplicateAnswer (str "Róma")) :=
  c9_duplicate_detected_universally.1 [] [str "roma"]
    [(str "letter", PyVal.pstr (str "S")),
     (str "question", PyVal.pstr (str "Empieza por S: otra ciudad")),
     (str "answer", PyVal.pstr (str "Róma"))]
    (str "S") (str "Empieza por S: otra ciudad") (str "Róma")
    rfl rfl rfl (by decide)

/-- C9 counterexample: the claim as stated quantifies over every
candidate set with a duplicated normalized answer, but a set whose R and
S entries both answer Roma (up to accents) and whose id is "set_02"
fails with the id error, not the duplicate-answer error: the schema
checks run before the per-entry loop ever reaches the duplicate. -/
theorem c9_schema_error_preempts_duplicate :
    (pyStrip (normalize_for_letter_check (str "Roma"))).map pyLower =
      (pyStrip (normalize_for_letter_check (str "Róma"))).map pyLower ∧
    validate_set dupSetBadId = .error .badId ∧
    validate_set dupSetBadId ≠ .error (.duplicateAnswer (str "Róma")) := by
  refine ⟨rfl, rfl, ?_⟩
  intro h
  rw [show validate_set dupSetBadId = Except.error Err.badId from rfl] at h
  exact Err.noConfusion (Except.error.inj h)
